import Mathlib

/-!
Verification of the version/tag reconciliation utility of this repository
(`app/utils/versions.ts`) and of the component-name mapping helper of
`test/unit/a11y-component-coverage.spec.ts`.

The reconciler source file itself is not part of the provided sources (only its
unit-test file is), so its six operations are modelled from the specification
(sections 3, 4, 7 and 8) and checked against the behaviour exercised by the
unit tests.  `mapComponentNameToFiles` is embedded directly from its source.

Strings are treated as their character lists (Lean strings are `List Char`
wrappers), and the string-splitting helpers used by the model are defined
explicitly so that their behaviour is fully transparent.
-/

/-- Splits a character list on every occurrence of the separator `sep`.
`splitOnChar '.' "1.2.3".toList = [['1'],['2'],['3']]`; the result is never
empty, and an empty input yields `[[]]`. -/
def splitOnChar (sep : Char) : List Char → List (List Char)
  | [] => [[]]
  | c :: cs =>
    if c = sep then [] :: splitOnChar sep cs
    else
      match splitOnChar sep cs with
      | [] => [[c]]
      | g :: gs => (c :: g) :: gs

/-- Best-effort decimal parse of a character list: `some` of the value when the
list is a nonempty run of digits, `none` otherwise (the integer-parsing step of
the version parser's numeric-core rule). -/
def digitsToNat? (l : List Char) : Option Nat :=
  if l ≠ [] ∧ l.all (fun c => c.isDigit) then
    some (l.foldl (fun n c => n * 10 + (c.toNat - 48)) 0)
  else none

/-- Requires the numeric core to consist of exactly three successfully parsed
integer components. -/
def threeNums? : List (Option Nat) → Option (Nat × Nat × Nat)
  | [some a, some b, some c] => some (a, b, c)
  | _ => none

/-- Modelled from the spec: `ParsedVersion` of `app/utils/versions.ts`
(missing from the provided sources), section 3: major/minor/patch integer
components plus the prerelease suffix (empty for stable releases). -/
structure ParsedVersion where
  major : Nat
  minor : Nat
  patch : Nat
  prerelease : String
deriving DecidableEq, Repr

/-- The sentinel "unknown" version `{0,0,0,''}` that malformed input degrades
to (spec sections 4.1 and 7). -/
def fallbackVersion : ParsedVersion := ⟨0, 0, 0, ""⟩

/-- The numeric core of a version string: the characters before the first
dash. -/
def versionCore (version : String) : List Char :=
  version.toList.takeWhile (fun c => c ≠ '-')

/-- The prerelease suffix of a version string: the characters after the first
dash (empty when there is no dash). -/
def versionPre (version : String) : List Char :=
  (version.toList.dropWhile (fun c => c ≠ '-')).drop 1

/-- Modelled from the spec: `parseVersion` of `app/utils/versions.ts`
(missing from the provided sources), section 4.1.  Split on the first `-` to
separate the numeric core from the prerelease suffix; split the core on `.`
into three integer components; any failing component, or a malformed core
overall, yields the fallback `{0,0,0,''}`.  A core with other than exactly
three components is treated as malformed (the spec leaves the more-than-three
case to the implementer; this model documents the error choice). -/
def parseVersion (version : String) : ParsedVersion :=
  match threeNums? ((splitOnChar '.' (versionCore version)).map digitsToNat?) with
  | some (a, b, c) => ⟨a, b, c, String.mk (versionPre version)⟩
  | none => fallbackVersion

/-- The strict variant of the same parsing rule, returning `none` instead of
the sentinel; `parseVersion` is its totalization (spec sections 7 and 9). -/
def parseVersionStrict? (version : String) : Option ParsedVersion :=
  (threeNums? ((splitOnChar '.' (versionCore version)).map digitsToNat?)).map
    (fun t => ⟨t.1, t.2.1, t.2.2, String.mk (versionPre version)⟩)

/-- Modelled from the spec: `getPrereleaseChannel` of `app/utils/versions.ts`
(missing from the provided sources), section 4.2: the first dot-delimited
token of the prerelease suffix as extracted by `parseVersion`, or the empty
string for stable versions. -/
def getPrereleaseChannel (version : String) : String :=
  let pre := (parseVersion version).prerelease
  if pre = "" then "" else String.mk (pre.toList.takeWhile (fun c => c ≠ '.'))

example : parseVersion "1.2.3" = ⟨1, 2, 3, ""⟩ := by decide
example : parseVersion "invalid" = ⟨0, 0, 0, ""⟩ := by decide
example : parseVersion "1.0.0-beta.1" = ⟨1, 0, 0, "beta.1"⟩ := by decide
example : parseVersion "5.8.0-beta" = ⟨5, 8, 0, "beta"⟩ := by decide
example : parseVersion "15.3.0-canary.1" = ⟨15, 3, 0, "canary.1"⟩ := by decide
example : parseVersion "0.0.0-experimental-react" = ⟨0, 0, 0, "experimental-react"⟩ := by decide
example : getPrereleaseChannel "1.0.0" = "" := by decide
example : getPrereleaseChannel "15.3.0-canary.1" = "canary" := by decide
example : getPrereleaseChannel "5.8.0-beta" = "beta" := by decide
example : getPrereleaseChannel "4.0.0-rc.0" = "rc" := by decide

/-- Lexicographic `≤` on strings, phrased over their character lists so that
it is computable by the kernel; propositionally it is exactly Mathlib's
`≤` on `String` (`strLe_iff_le` below). -/
def strLe (a b : String) : Prop :=
  ¬ (b.toList < a.toList)

instance : DecidableRel strLe := fun a b => by
  unfold strLe; infer_instance

theorem strLe_iff_le (a b : String) : strLe a b ↔ a ≤ b := by
  rw [strLe, ← String.lt_iff_toList_lt]
  exact Iff.rfl

/-- The total tag ordering used by the tag sorter (spec section 4.3): `latest`
ranks before everything else, all other tags compare lexically. -/
def tagLe (a b : String) : Prop :=
  if a = "latest" then True else if b = "latest" then False else strLe a b

instance : DecidableRel tagLe := fun a b => by
  unfold tagLe; infer_instance

/-- Modelled from the spec: `sortTags` of `app/utils/versions.ts` (missing
from the provided sources), section 4.3: a new list with `latest` moved to the
front if present and the remaining tags in ascending lexical order, realized
as a sort under the total ordering `tagLe`. -/
def sortTags (tags : List String) : List String :=
  List.insertionSort tagLe tags

example : sortTags ["beta", "latest", "alpha"] = ["latest", "alpha", "beta"] := by decide
example : sortTags ["beta", "canary", "alpha"] = ["alpha", "beta", "canary"] := by decide
example : sortTags ["latest"] = ["latest"] := by decide
example : sortTags [] = [] := by decide

/-- The prerelease ordering of spec sections 3 and 4.5: a stable version
(empty prerelease) outranks any prerelease, and prereleases compare lexically
(no numeric-aware comparison of components). -/
def preLE (p q : String) : Prop :=
  q = "" ∨ (p ≠ "" ∧ strLe p q)

/-- Strict ordering of numeric cores: higher major wins, then minor, then
patch (spec section 4.5). -/
def coreLt (a b : ParsedVersion) : Prop :=
  a.major < b.major
    ∨ (a.major = b.major
        ∧ (a.minor < b.minor ∨ (a.minor = b.minor ∧ a.patch < b.patch)))

/-- Equality of numeric cores. -/
def coreEq (a b : ParsedVersion) : Prop :=
  a.major = b.major ∧ a.minor = b.minor ∧ a.patch = b.patch

/-- Semantic-version precedence on parsed versions as specified in section
4.5: compare the numeric cores lexicographically; at an equal core fall back
to the prerelease ordering `preLE`. -/
def verLE (a b : ParsedVersion) : Prop :=
  coreLt a b ∨ (coreEq a b ∧ preLE a.prerelease b.prerelease)

instance : DecidableRel preLE := fun p q => by
  unfold preLE; infer_instance

instance : DecidableRel coreLt := fun a b => by
  unfold coreLt; infer_instance

instance : DecidableRel coreEq := fun a b => by
  unfold coreEq; infer_instance

instance : DecidableRel verLE := fun a b => by
  unfold verLE; infer_instance

/-- Modelled from the spec: `TaggedVersionRow` of `app/utils/versions.ts`
(missing from the provided sources), section 3. -/
structure TaggedVersionRow where
  id : String
  version : String
  primaryTag : String
  tags : List String
deriving DecidableEq, Repr

/-- The descending display order on rows: a row comes first when its parsed
version is at least the other's under `verLE` (spec section 4.5). -/
def rowGE (r s : TaggedVersionRow) : Prop :=
  verLE (parseVersion s.version) (parseVersion r.version)

instance : DecidableRel rowGE := fun r s => by
  unfold rowGE; infer_instance

/-- The distinct values of a list in first-encounter order. -/
def firstOccurrences : List String → List String
  | [] => []
  | v :: rest => v :: (firstOccurrences rest).filter (fun w => w ≠ v)

/-- Modelled from the spec: `buildVersionToTagsMap` of `app/utils/versions.ts`
(missing from the provided sources), section 4.4: invert the tag→version
mapping by grouping tag names under their resolved version string (groups in
first-encounter order) and sort each group with the tag sorter.  A `DistTags`
mapping is embedded as its association list of (tag name, version string)
entries, and the map as the association list of (version, tags) groups. -/
def buildVersionToTagsMap (distTags : List (String × String)) :
    List (String × List String) :=
  (firstOccurrences (distTags.map Prod.snd)).map
    (fun v => (v, sortTags ((distTags.filter (fun p => p.2 = v)).map Prod.fst)))

/-- Modelled from the spec: `buildTaggedVersionRows` of
`app/utils/versions.ts` (missing from the provided sources), section 4.5: one
row per distinct resolved version, row id `"version:" + version`, primary tag
the head of the sorted tag group, rows sorted by version descending. -/
def buildTaggedVersionRows (distTags : List (String × String)) :
    List TaggedVersionRow :=
  List.insertionSort rowGE
    ((buildVersionToTagsMap distTags).map
      (fun p => ⟨"version:" ++ p.1, p.1, p.2.headD "", p.2⟩))

/-- Modelled from the spec: `filterExcludedTags` of `app/utils/versions.ts`
(missing from the provided sources), section 4.6: keep the tags not present in
the exclusion list, preserving input order. -/
def filterExcludedTags (tags excluded : List String) : List String :=
  tags.filter (fun t => ¬ excluded.contains t)

example :
    buildVersionToTagsMap [("latest", "1.0.0"), ("beta", "2.0.0-beta.1")]
      = [("1.0.0", ["latest"]), ("2.0.0-beta.1", ["beta"])] := by decide
example :
    buildVersionToTagsMap [("latest", "1.0.0"), ("stable", "1.0.0"), ("lts", "1.0.0")]
      = [("1.0.0", ["latest", "lts", "stable"])] := by decide
example :
    (buildTaggedVersionRows
        [("latest", "2.0.0"), ("beta", "3.0.0-beta.1"), ("legacy", "1.0.0")]).map
        (fun r => r.version)
      = ["3.0.0-beta.1", "2.0.0", "1.0.0"] := by decide
example :
    buildTaggedVersionRows [("latest", "1.0.0"), ("stable", "1.0.0"), ("beta", "2.0.0-beta.1")]
      = [⟨"version:2.0.0-beta.1", "2.0.0-beta.1", "beta", ["beta"]⟩,
         ⟨"version:1.0.0", "1.0.0", "latest", ["latest", "stable"]⟩] := by decide
example :
    (buildTaggedVersionRows
        [("1x", "1.4.5"), ("2x", "2.18.1"), ("alpha", "4.0.0-alpha.4"),
         ("rc", "4.0.0-rc.0"), ("3x", "3.21.0"), ("latest", "4.3.0")]).map
        (fun r => r.version)
      = ["4.3.0", "4.0.0-rc.0", "4.0.0-alpha.4", "3.21.0", "2.18.1", "1.4.5"] := by decide
example : filterExcludedTags ["latest", "next", "beta"] ["latest", "next"] = ["beta"] := by decide
example : filterExcludedTags ["latest", "beta"] [] = ["latest", "beta"] := by decide
example : filterExcludedTags ["latest", "beta", "rc"] ["latest"] = ["beta", "rc"] := by decide
example : filterExcludedTags ["latest"] ["latest"] = [] := by decide
example : filterExcludedTags ["beta", "rc"] ["latest"] = ["beta", "rc"] := by decide

example :
    buildVersionToTagsMap
        [("1x", "1.4.5"), ("2x", "2.18.1"), ("alpha", "4.0.0-alpha.4"),
         ("rc", "4.0.0-rc.0"), ("3x", "3.21.0"), ("latest", "4.3.0")]
      = [("1.4.5", ["1x"]), ("2.18.1", ["2x"]), ("4.0.0-alpha.4", ["alpha"]),
         ("4.0.0-rc.0", ["rc"]), ("3.21.0", ["3x"]), ("4.3.0", ["latest"])] := by decide
example :
    buildVersionToTagsMap
        [("latest", "5.8.3"), ("next", "5.8.3"), ("beta", "5.9.0-beta"), ("rc", "5.9.0-rc")]
      = [("5.8.3", ["latest", "next"]), ("5.9.0-beta", ["beta"]), ("5.9.0-rc", ["rc"])] := by
  decide
example :
    buildVersionToTagsMap
        [("latest", "3.5.13"), ("next", "3.5.13"), ("v2-latest", "2.7.16"), ("csp", "1.0.28-csp")]
      = [("3.5.13", ["latest", "next"]), ("2.7.16", ["v2-latest"]), ("1.0.28-csp", ["csp"])] := by
  decide
example :
    buildVersionToTagsMap
        [("latest", "19.1.0"), ("next", "19.1.0"), ("canary", "19.1.0-canary-xyz"),
         ("experimental", "0.0.0-experimental-xyz"), ("rc", "19.0.0-rc.1")]
      = [("19.1.0", ["latest", "next"]), ("19.1.0-canary-xyz", ["canary"]),
         ("0.0.0-experimental-xyz", ["experimental"]), ("19.0.0-rc.1", ["rc"])] := by decide
example :
    (buildTaggedVersionRows [("stable", "1.0.0"), ("latest", "1.0.0"), ("lts", "1.0.0")]).map
        (fun r => (r.primaryTag, r.tags))
      = [("latest", ["latest", "lts", "stable"])] := by decide
example :
    buildTaggedVersionRows [("latest", "3.5.13"), ("next", "3.5.13"), ("v2-latest", "2.7.16")]
      = [⟨"version:3.5.13", "3.5.13", "latest", ["latest", "next"]⟩,
         ⟨"version:2.7.16", "2.7.16", "v2-latest", ["v2-latest"]⟩] := by decide

/-- `mapComponentNameToFiles` embedded from
`test/unit/a11y-component-coverage.spec.ts`: a `Compare`-prefixed export name
maps to the single file `compare/<rest>.vue`; every other name maps to the
`.vue` and `.client.vue` candidates. -/
def mapComponentNameToFiles (name : String) : List String :=
  if "Compare".toList.isPrefixOf name.toList then
    [("compare/" ++ String.mk (name.toList.drop "Compare".length)) ++ ".vue"]
  else
    [name ++ ".vue", name ++ ".client.vue"]

example : mapComponentNameToFiles "CompareHero" = ["compare/Hero.vue"] := by decide
example : mapComponentNameToFiles "Modal" = ["Modal.vue", "Modal.client.vue"] := by decide

/-! ### Order-theoretic facts about the tag and version orderings -/

theorem tagLe_total (a b : String) : tagLe a b ∨ tagLe b a := by
  unfold tagLe
  by_cases ha : a = "latest" <;> by_cases hb : b = "latest" <;> simp [ha, hb]
  rcases le_total a b with h | h
  · exact Or.inl ((strLe_iff_le a b).mpr h)
  · exact Or.inr ((strLe_iff_le b a).mpr h)

theorem tagLe_trans (a b c : String) : tagLe a b → tagLe b c → tagLe a c := by
  unfold tagLe
  by_cases ha : a = "latest" <;> by_cases hb : b = "latest" <;>
    by_cases hc : c = "latest" <;> simp [ha, hb, hc]
  intro h1 h2
  exact (strLe_iff_le a c).mpr (le_trans ((strLe_iff_le a b).mp h1) ((strLe_iff_le b c).mp h2))

theorem tagLe_antisymm (a b : String) : tagLe a b → tagLe b a → a = b := by
  unfold tagLe
  intro h1 h2
  by_cases ha : a = "latest" <;> by_cases hb : b = "latest"
  · exact ha.trans hb.symm
  · simp [ha, hb] at h2
  · simp [ha, hb] at h1
  · simp only [ha, hb, if_false, if_neg ha, if_neg hb] at h1 h2
    exact le_antisymm ((strLe_iff_le a b).mp h1) ((strLe_iff_le b a).mp h2)

instance : IsTotal String tagLe := ⟨tagLe_total⟩

instance : IsTrans String tagLe := ⟨tagLe_trans⟩

instance : IsAntisymm String tagLe := ⟨tagLe_antisymm⟩

theorem preLE_total (p q : String) : preLE p q ∨ preLE q p := by
  unfold preLE
  by_cases hp : p = "" <;> by_cases hq : q = "" <;> simp [hp, hq]
  rcases le_total p q with h | h
  · exact Or.inl ((strLe_iff_le p q).mpr h)
  · exact Or.inr ((strLe_iff_le q p).mpr h)

theorem preLE_trans (p q r : String) : preLE p q → preLE q r → preLE p r := by
  intro h1 h2
  rcases h2 with hr | ⟨hq, hqr⟩
  · exact Or.inl hr
  rcases h1 with hq' | ⟨hp, hpq⟩
  · exact absurd hq' hq
  · exact Or.inr ⟨hp,
      (strLe_iff_le p r).mpr (le_trans ((strLe_iff_le p q).mp hpq) ((strLe_iff_le q r).mp hqr))⟩

theorem core_trichotomy (a b : ParsedVersion) : coreLt a b ∨ coreEq a b ∨ coreLt b a := by
  unfold coreLt coreEq; omega

theorem coreLt_trans (a b c : ParsedVersion) : coreLt a b → coreLt b c → coreLt a c := by
  unfold coreLt; omega

theorem coreLt_of_coreLt_coreEq (a b c : ParsedVersion) :
    coreLt a b → coreEq b c → coreLt a c := by
  unfold coreLt coreEq; omega

theorem coreLt_of_coreEq_coreLt (a b c : ParsedVersion) :
    coreEq a b → coreLt b c → coreLt a c := by
  unfold coreLt coreEq; omega

theorem coreEq_symm (a b : ParsedVersion) : coreEq a b → coreEq b a := by
  unfold coreEq; omega

theorem coreEq_trans (a b c : ParsedVersion) : coreEq a b → coreEq b c → coreEq a c := by
  unfold coreEq; omega

theorem verLE_total (a b : ParsedVersion) : verLE a b ∨ verLE b a := by
  rcases core_trichotomy a b with h | h | h
  · exact Or.inl (Or.inl h)
  · rcases preLE_total a.prerelease b.prerelease with hp | hp
    · exact Or.inl (Or.inr ⟨h, hp⟩)
    · exact Or.inr (Or.inr ⟨coreEq_symm a b h, hp⟩)
  · exact Or.inr (Or.inl h)

theorem verLE_trans (a b c : ParsedVersion) : verLE a b → verLE b c → verLE a c := by
  intro h1 h2
  rcases h1 with h1 | ⟨he1, hp1⟩ <;> rcases h2 with h2 | ⟨he2, hp2⟩
  · exact Or.inl (coreLt_trans a b c h1 h2)
  · exact Or.inl (coreLt_of_coreLt_coreEq a b c h1 he2)
  · exact Or.inl (coreLt_of_coreEq_coreLt a b c he1 h2)
  · exact Or.inr ⟨coreEq_trans a b c he1 he2, preLE_trans _ _ _ hp1 hp2⟩

instance : IsTotal TaggedVersionRow rowGE :=
  ⟨fun r s => verLE_total (parseVersion s.version) (parseVersion r.version)⟩

instance : IsTrans TaggedVersionRow rowGE :=
  ⟨fun r s t h1 h2 =>
    verLE_trans (parseVersion t.version) (parseVersion s.version) (parseVersion r.version) h2 h1⟩

/-! ### Facts about the tag sorter -/

theorem sortTags_perm (l : List String) : List.Perm (sortTags l) l :=
  List.perm_insertionSort tagLe l

theorem sortTags_sorted (l : List String) : List.Sorted tagLe (sortTags l) :=
  List.sorted_insertionSort tagLe l

theorem sortTags_length (l : List String) : (sortTags l).length = l.length :=
  (sortTags_perm l).length_eq

/-- Whenever `latest` occurs in a sorted tag list, it is the head. -/
theorem sortTags_head_latest (l : List String) (h : "latest" ∈ sortTags l) :
    (sortTags l).headD "" = "latest" := by
  have hs : List.Sorted tagLe (sortTags l) := sortTags_sorted l
  cases hl : sortTags l with
  | nil => rw [hl] at h; exact absurd h (List.not_mem_nil _)
  | cons a t =>
    rw [hl] at h hs
    simp only [List.headD_cons]
    rcases List.mem_cons.mp h with h' | h'
    · exact h'.symm
    · have hr := List.rel_of_sorted_cons hs _ h'
      unfold tagLe at hr
      by_cases ha : a = "latest"
      · exact ha
      · simp [ha] at hr

/-- Without `latest`, the head of a sorted tag list is a lexical lower bound. -/
theorem sortTags_head_min (l : List String) (h : "latest" ∉ sortTags l)
    (t : String) (ht : t ∈ sortTags l) : (sortTags l).headD "" ≤ t := by
  have hs : List.Sorted tagLe (sortTags l) := sortTags_sorted l
  cases hl : sortTags l with
  | nil => rw [hl] at ht; exact absurd ht (List.not_mem_nil _)
  | cons a tl =>
    rw [hl] at ht hs h
    simp only [List.headD_cons]
    have ha : a ≠ "latest" := fun e => h (by rw [← e]; exact List.mem_cons_self a tl)
    have htne : t ≠ "latest" := fun e => h (by rw [← e]; exact ht)
    rcases List.mem_cons.mp ht with h' | h'
    · exact le_of_eq h'.symm
    · have hr := List.rel_of_sorted_cons hs _ h'
      unfold tagLe at hr
      rw [if_neg ha, if_neg htne] at hr
      exact (strLe_iff_le a t).mp hr

/-- The tag sorter is insensitive to the order of its input. -/
theorem sortTags_perm_congr {l l' : List String} (h : List.Perm l l') :
    sortTags l = sortTags l' :=
  List.eq_of_perm_of_sorted ((sortTags_perm l).trans (h.trans (sortTags_perm l').symm))
    (sortTags_sorted l) (sortTags_sorted l')

/-- When `latest` is present it is moved to the front, ahead of the sorted
remainder. -/
theorem sortTags_latest_cons (l : List String) (h : "latest" ∈ l) :
    sortTags l = "latest" :: sortTags (l.erase "latest") := by
  refine List.eq_of_perm_of_sorted (r := tagLe) ?_ (sortTags_sorted l) ?_
  · exact (sortTags_perm l).trans
      ((List.perm_cons_erase h).trans ((sortTags_perm (l.erase "latest")).symm.cons _))
  · refine List.sorted_cons.mpr ⟨?_, sortTags_sorted _⟩
    intro b _
    unfold tagLe
    simp

/-- When `latest` is absent, sorting the tags is plain lexical sorting. -/
theorem sortTags_no_latest (l : List String) (h : "latest" ∉ l) :
    sortTags l = List.insertionSort (fun a b : String => a ≤ b) l := by
  have hmem : ∀ x ∈ sortTags l, x ≠ "latest" := by
    intro x hx e
    exact h (e ▸ (sortTags_perm l).mem_iff.mp hx)
  refine List.eq_of_perm_of_sorted (r := fun a b : String => a ≤ b)
    ((sortTags_perm l).trans (List.perm_insertionSort _ l).symm) ?_
    (List.sorted_insertionSort _ l)
  refine (sortTags_sorted l).imp_of_mem ?_
  intro a b hma hmb hr
  unfold tagLe at hr
  rw [if_neg (hmem a hma), if_neg (hmem b hmb)] at hr
  exact (strLe_iff_le a b).mp hr

/-! ### Facts about grouping -/

theorem mem_firstOccurrences (x : String) (l : List String) :
    x ∈ firstOccurrences l ↔ x ∈ l := by
  induction l with
  | nil => simp [firstOccurrences]
  | cons v rest ih =>
    simp only [firstOccurrences, List.mem_cons, List.mem_filter]
    by_cases hx : x = v
    · simp [hx]
    · simp [hx, ih]

theorem nodup_firstOccurrences (l : List String) : (firstOccurrences l).Nodup := by
  induction l with
  | nil => simp [firstOccurrences]
  | cons v rest ih =>
    simp only [firstOccurrences]
    refine List.nodup_cons.mpr ⟨?_, ih.filter _⟩
    simp [List.mem_filter]

theorem length_firstOccurrences (l : List String) :
    (firstOccurrences l).length = l.dedup.length := by
  have h1 : (firstOccurrences l).toFinset = l.toFinset := by
    ext x
    simp [List.mem_toFinset, mem_firstOccurrences]
  calc (firstOccurrences l).length
      = (firstOccurrences l).dedup.length := by rw [(nodup_firstOccurrences l).dedup]
    _ = (firstOccurrences l).toFinset.card := (List.card_toFinset _).symm
    _ = l.toFinset.card := by rw [h1]
    _ = l.dedup.length := List.card_toFinset l

theorem length_filter_add_not {α : Type} (p : α → Bool) (l : List α) :
    (l.filter p).length + (l.filter (fun a => ! p a)).length = l.length := by
  induction l with
  | nil => simp
  | cons a t ih => cases hp : p a <;> simp [hp, List.filter_cons] <;> omega

/-- Summing, over a duplicate-free list of values covering all entries, the
number of entries resolving to each value recovers the total entry count. -/
theorem sum_length_filter_eq (vs : List String) :
    ∀ l : List (String × String), vs.Nodup → (∀ p ∈ l, p.2 ∈ vs) →
      (vs.map (fun v => (l.filter (fun p => p.2 = v)).length)).sum = l.length := by
  induction vs with
  | nil =>
    intro l _ hcov
    cases l with
    | nil => simp
    | cons q t => exact absurd (hcov q (List.mem_cons_self q t)) (List.not_mem_nil _)
  | cons v vs ih =>
    intro l hnd hcov
    have hvnotin : v ∉ vs := (List.nodup_cons.mp hnd).1
    have hnd' : vs.Nodup := (List.nodup_cons.mp hnd).2
    have hcov' : ∀ p ∈ l.filter (fun p => ! decide (p.2 = v)), p.2 ∈ vs := by
      intro p hp
      rcases List.mem_filter.mp hp with ⟨hpl, hne⟩
      have hpv : p.2 ≠ v := by simpa using hne
      rcases List.mem_cons.mp (hcov p hpl) with h | h
      · exact absurd h hpv
      · exact h
    have hmap : vs.map (fun w => (l.filter (fun p => p.2 = w)).length)
        = vs.map (fun w => ((l.filter (fun p => ! decide (p.2 = v))).filter
            (fun p => p.2 = w)).length) := by
      refine List.map_congr_left ?_
      intro w hw
      have hwv : w ≠ v := fun e => hvnotin (e ▸ hw)
      rw [List.filter_filter]
      congr 1
      refine (List.filter_congr ?_).symm
      intro p _
      by_cases hpw : p.2 = w <;> simp [hpw, hwv]
    rw [List.map_cons, List.sum_cons, hmap, ih _ hnd' hcov']
    exact length_filter_add_not (fun p => decide (p.2 = v)) l

/-! ### Facts about parsing -/

theorem splitOnChar_ne_nil (sep : Char) (l : List Char) : splitOnChar sep l ≠ [] := by
  cases l with
  | nil => simp [splitOnChar]
  | cons c cs =>
    simp only [splitOnChar]
    by_cases h : c = sep
    · simp [h]
    · simp only [if_neg h]
      cases hs : splitOnChar sep cs <;> simp

/-- The head group produced by the splitter is the leading run of
non-separator characters. -/
theorem headD_splitOnChar (sep : Char) (l : List Char) :
    (splitOnChar sep l).headD [] = l.takeWhile (fun c => c ≠ sep) := by
  induction l with
  | nil => simp [splitOnChar]
  | cons c cs ih =>
    simp only [splitOnChar, List.takeWhile_cons]
    by_cases h : c = sep
    · simp [h]
    · simp only [if_neg h, decide_eq_true_eq]
      rw [if_pos h]
      cases hs : splitOnChar sep cs with
      | nil => exact absurd hs (splitOnChar_ne_nil sep cs)
      | cons g gs =>
        rw [hs] at ih
        simp only [List.headD_cons] at ih ⊢
        rw [ih]

theorem threeNums?_eq_none (m : List (Option Nat)) (hm : none ∈ m) :
    threeNums? m = none := by
  cases h : threeNums? m with
  | none => rfl
  | some t =>
    exfalso
    unfold threeNums? at h
    split at h
    · simp at hm
    · exact Option.noConfusion h

/-- `parseVersion` is the totalization of the strict parser by the sentinel
version. -/
theorem parseVersion_eq_getD (v : String) :
    parseVersion v = (parseVersionStrict? v).getD fallbackVersion := by
  unfold parseVersion parseVersionStrict?
  cases threeNums? ((splitOnChar '.' (versionCore v)).map digitsToNat?) with
  | none => rfl
  | some t => obtain ⟨a, b, c⟩ := t; rfl

/-- Any component of the numeric core that fails integer parsing forces the
sentinel result. -/
theorem parseVersion_fallback_of_bad_component (v : String) (comp : List Char)
    (hmem : comp ∈ splitOnChar '.' (versionCore v)) (hbad : digitsToNat? comp = none) :
    parseVersion v = fallbackVersion := by
  have hnone : (none : Option Nat) ∈ (splitOnChar '.' (versionCore v)).map digitsToNat? := by
    rw [← hbad]
    exact List.mem_map_of_mem _ hmem
  unfold parseVersion
  rw [threeNums?_eq_none _ hnone]

/-- A version string without a dash has an empty prerelease. -/
theorem parseVersion_prerelease_of_no_dash (v : String) (h : '-' ∉ v.toList) :
    (parseVersion v).prerelease = "" := by
  have hpre : versionPre v = [] := by
    unfold versionPre
    have hall : ∀ x ∈ v.toList, (fun c => decide (c ≠ '-')) x = true := by
      intro x hx
      simp only [decide_eq_true_eq]
      exact fun e => h (e ▸ hx)
    rw [List.dropWhile_eq_nil_iff.mpr hall]
    rfl
  unfold parseVersion
  cases threeNums? ((splitOnChar '.' (versionCore v)).map digitsToNat?) with
  | none => rfl
  | some t =>
    obtain ⟨a, b, c⟩ := t
    simp only
    rw [hpre]

/-! ### Facts about the row builder -/

theorem mem_buildVersionToTagsMap (distTags : List (String × String))
    (q : String × List String) :
    q ∈ buildVersionToTagsMap distTags ↔
      q.1 ∈ firstOccurrences (distTags.map Prod.snd)
        ∧ q.2 = sortTags ((distTags.filter (fun p => p.2 = q.1)).map Prod.fst) := by
  unfold buildVersionToTagsMap
  rw [List.mem_map]
  constructor
  · rintro ⟨v, hv, rfl⟩
    exact ⟨hv, rfl⟩
  · rintro ⟨h1, h2⟩
    refine ⟨q.1, h1, ?_⟩
    obtain ⟨v, tags⟩ := q
    simp only at h1 h2 ⊢
    rw [h2]

theorem mem_buildTaggedVersionRows (distTags : List (String × String))
    (row : TaggedVersionRow) :
    row ∈ buildTaggedVersionRows distTags ↔
      ∃ q ∈ buildVersionToTagsMap distTags,
        row = ⟨"version:" ++ q.1, q.1, q.2.headD "", q.2⟩ := by
  unfold buildTaggedVersionRows
  rw [(List.perm_insertionSort rowGE _).mem_iff, List.mem_map]
  constructor
  · rintro ⟨q, hq, rfl⟩
    exact ⟨q, hq, rfl⟩
  · rintro ⟨q, hq, rfl⟩
    exact ⟨q, hq, rfl⟩

/-! ### The claims -/

/-- C1: for every DistTags mapping, `buildTaggedVersionRows` returns the rows
sorted by version descending under semantic-version precedence (`verLE`:
higher major, then minor, then patch; at an equal numeric core a stable
version outranks any prerelease and prereleases compare lexically), and on
the Nuxt scenario the row versions are exactly
`['4.3.0','4.0.0-rc.0','4.0.0-alpha.4','3.21.0','2.18.1','1.4.5']`. -/
theorem buildTaggedVersionRows_sorted_desc :
    (∀ distTags : List (String × String),
        List.Sorted (fun a b => verLE b a)
          ((buildTaggedVersionRows distTags).map (fun r => parseVersion r.version)))
    ∧ (buildTaggedVersionRows
          [("1x", "1.4.5"), ("2x", "2.18.1"), ("alpha", "4.0.0-alpha.4"),
           ("rc", "4.0.0-rc.0"), ("3x", "3.21.0"), ("latest", "4.3.0")]).map
          (fun r => r.version)
        = ["4.3.0", "4.0.0-rc.0", "4.0.0-alpha.4", "3.21.0", "2.18.1", "1.4.5"] := by
  constructor
  · intro distTags
    have hs : List.Sorted rowGE (buildTaggedVersionRows distTags) :=
      List.sorted_insertionSort rowGE _
    exact List.pairwise_map.mpr hs
  · decide

/-- C2: `parseVersion` splits on the first dash, parses the dot-separated
numeric core into three integers, degrades any malformed input to the
sentinel `{0,0,0,''}`, yields `{1,2,3,''}` on `'1.2.3'` and the sentinel on
`'invalid'`, and gives an empty prerelease to any version without a dash. -/
theorem parseVersion_spec :
    parseVersion "1.2.3" = ⟨1, 2, 3, ""⟩
    ∧ parseVersion "invalid" = ⟨0, 0, 0, ""⟩
    ∧ (∀ v : String, '-' ∉ v.toList → (parseVersion v).prerelease = "")
    ∧ (∀ v : String, ∀ comp ∈ splitOnChar '.' (versionCore v),
        digitsToNat? comp = none → parseVersion v = ⟨0, 0, 0, ""⟩) := by
  refine ⟨by decide, by decide, parseVersion_prerelease_of_no_dash, ?_⟩
  intro v comp hmem hbad
  exact parseVersion_fallback_of_bad_component v comp hmem hbad

/-- C2 witness: the conditional parts of `parseVersion_spec` instantiated at
concrete inputs. -/
theorem parseVersion_spec_witness :
    (parseVersion "1.2.3").prerelease = "" ∧ parseVersion "invalid" = ⟨0, 0, 0, ""⟩ :=
  ⟨parseVersion_spec.2.2.1 "1.2.3" (by decide),
   parseVersion_spec.2.2.2 "invalid" "invalid".toList (by decide) (by decide)⟩

/-- C3: for every DistTags input, the total number of tag names summed across
all groups of `buildVersionToTagsMap` equals the number of input entries:
every tag lands in exactly one group, none duplicated, none lost. -/
theorem buildVersionToTagsMap_tag_count (distTags : List (String × String)) :
    ((buildVersionToTagsMap distTags).map (fun p => p.2.length)).sum
      = distTags.length := by
  unfold buildVersionToTagsMap
  rw [List.map_map]
  have h1 : ((fun p : String × List String => p.2.length) ∘
        (fun v => (v, sortTags ((distTags.filter (fun p => p.2 = v)).map Prod.fst))))
      = fun v => (distTags.filter (fun p => p.2 = v)).length := by
    funext v
    simp only [Function.comp_apply]
    rw [sortTags_length, List.length_map]
  rw [h1]
  exact sum_length_filter_eq _ distTags (nodup_firstOccurrences _)
    (fun p hp => (mem_firstOccurrences _ _).mpr (List.mem_map_of_mem Prod.snd hp))

/-- C4: `buildTaggedVersionRows` has one row per distinct version value of
the input; each row's id is `"version:" + version`, its tags are the sorted
tag group of its version, and its primary tag is the head of that list:
`latest` whenever `latest` points at the row's version, otherwise the
lexically-first tag. -/
theorem buildTaggedVersionRows_row_shape (distTags : List (String × String)) :
    (buildTaggedVersionRows distTags).length = ((distTags.map Prod.snd).dedup).length
    ∧ ∀ row ∈ buildTaggedVersionRows distTags,
        row.id = "version:" ++ row.version
        ∧ row.tags = sortTags ((distTags.filter (fun p => p.2 = row.version)).map Prod.fst)
        ∧ row.primaryTag = row.tags.headD ""
        ∧ ("latest" ∈ row.tags → row.primaryTag = "latest")
        ∧ ("latest" ∉ row.tags → ∀ t ∈ row.tags, row.primaryTag ≤ t) := by
  constructor
  · unfold buildTaggedVersionRows buildVersionToTagsMap
    rw [(List.perm_insertionSort rowGE _).length_eq, List.length_map, List.length_map]
    exact length_firstOccurrences _
  · intro row hrow
    rcases (mem_buildTaggedVersionRows distTags row).mp hrow with ⟨q, hq, rfl⟩
    rcases (mem_buildVersionToTagsMap distTags q).mp hq with ⟨_, htags⟩
    refine ⟨rfl, htags, rfl, ?_, ?_⟩
    · intro hl
      rw [htags] at hl ⊢
      exact sortTags_head_latest _ hl
    · intro hl t ht
      rw [htags] at hl ht ⊢
      exact sortTags_head_min _ hl t ht

/-- C4 witness: the row facts of `buildTaggedVersionRows_row_shape`
instantiated at a concrete input and row. -/
theorem buildTaggedVersionRows_row_shape_witness :
    (TaggedVersionRow.mk "version:1.0.0" "1.0.0" "latest" ["latest"]).id
        = "version:" ++ (TaggedVersionRow.mk "version:1.0.0" "1.0.0" "latest" ["latest"]).version
    ∧ (TaggedVersionRow.mk "version:1.0.0" "1.0.0" "latest" ["latest"]).primaryTag
        = "latest" := by
  have h := (buildTaggedVersionRows_row_shape [("latest", "1.0.0")]).2
    (TaggedVersionRow.mk "version:1.0.0" "1.0.0" "latest" ["latest"]) (by decide)
  exact ⟨h.1, h.2.2.2.1 (by decide)⟩

/-- C5: `getPrereleaseChannel` is the first dot-delimited token of the
prerelease string extracted by `parseVersion` (so the two functions agree),
is empty on stable versions, and yields `'canary'` on `'15.3.0-canary.1'` and
`'beta'` on `'5.8.0-beta'`. -/
theorem getPrereleaseChannel_spec (v : String) :
    getPrereleaseChannel v
        = String.mk ((splitOnChar '.' (parseVersion v).prerelease.toList).headD [])
    ∧ ((parseVersion v).prerelease = "" → getPrereleaseChannel v = "")
    ∧ getPrereleaseChannel "15.3.0-canary.1" = "canary"
    ∧ getPrereleaseChannel "5.8.0-beta" = "beta" := by
  refine ⟨?_, ?_, by decide, by decide⟩
  · unfold getPrereleaseChannel
    by_cases h : (parseVersion v).prerelease = ""
    · rw [if_pos h, h]
      rfl
    · rw [if_neg h, headD_splitOnChar]
  · intro h
    unfold getPrereleaseChannel
    rw [if_pos h]

/-- C5 witness: the stable-version part of `getPrereleaseChannel_spec` at a
concrete input. -/
theorem getPrereleaseChannel_spec_witness : getPrereleaseChannel "1.0.0" = "" :=
  (getPrereleaseChannel_spec "1.0.0").2.1 (by decide)

/-- C6: `sortTags` returns a permutation of its input sorted under the tag
ordering, with `latest` moved to the front when present and the remainder in
ascending lexical order; when `latest` is absent the result is the plain
lexical sort of the input; the result depends only on the multiset of tags,
not on their input order.  (The input list itself is untouched: the model is
a pure function of its argument.) -/
theorem sortTags_spec (l : List String) :
    List.Perm (sortTags l) l
    ∧ List.Sorted tagLe (sortTags l)
    ∧ ("latest" ∈ l → sortTags l = "latest" :: sortTags (l.erase "latest"))
    ∧ ("latest" ∉ l → sortTags l = List.insertionSort (fun a b : String => a ≤ b) l)
    ∧ (∀ l' : List String, List.Perm l l' → sortTags l = sortTags l') :=
  ⟨sortTags_perm l, sortTags_sorted l, sortTags_latest_cons l, sortTags_no_latest l,
   fun _ h => sortTags_perm_congr h⟩

/-- C6 witness: the conditional parts of `sortTags_spec` instantiated at
concrete tag lists. -/
theorem sortTags_spec_witness :
    sortTags ["beta", "latest", "alpha"]
        = "latest" :: sortTags (["beta", "latest", "alpha"].erase "latest")
    ∧ sortTags ["beta", "canary", "alpha"]
        = List.insertionSort (fun a b : String => a ≤ b) ["beta", "canary", "alpha"] :=
  ⟨(sortTags_spec ["beta", "latest", "alpha"]).2.2.1 (by decide),
   (sortTags_spec ["beta", "canary", "alpha"]).2.2.2.1 (by decide)⟩

/-- C7: `sortTags` is idempotent. -/
theorem sortTags_idem (l : List String) : sortTags (sortTags l) = sortTags l :=
  List.Sorted.insertionSort_eq (sortTags_sorted l)

/-- C8: `filterExcludedTags` preserves the input's order (the result is a
sublist), keeps exactly the tags not present in the exclusion list, is the
identity copy for an empty exclusion list, and maps
`(['latest','next','beta'], ['latest','next'])` to `['beta']`. -/
theorem filterExcludedTags_spec (tags excluded : List String) :
    List.Sublist (filterExcludedTags tags excluded) tags
    ∧ (∀ t : String, t ∈ filterExcludedTags tags excluded ↔ (t ∈ tags ∧ t ∉ excluded))
    ∧ filterExcludedTags tags [] = tags
    ∧ filterExcludedTags ["latest", "next", "beta"] ["latest", "next"] = ["beta"] := by
  refine ⟨List.filter_sublist tags, ?_, by simp [filterExcludedTags], by decide⟩
  intro t
  simp [filterExcludedTags, List.mem_filter]

/-- C9: no operation of the reconciler core can fail: `parseVersion` is the
sentinel-valued totalization of the strict parser (malformed strings degrade
to `{0,0,0,''}` instead of erroring), and even an entry with an unparseable
version string is still rendered as a row rather than aborting the list. -/
theorem reconciler_total (v : String) (distTags : List (String × String)) :
    parseVersion v = (parseVersionStrict? v).getD fallbackVersion
    ∧ (parseVersionStrict? v = none → parseVersion v = fallbackVersion)
    ∧ (∀ tag ver : String, (tag, ver) ∈ distTags →
        ver ∈ (buildTaggedVersionRows distTags).map (fun r => r.version)) := by
  refine ⟨parseVersion_eq_getD v, ?_, ?_⟩
  · intro h
    rw [parseVersion_eq_getD v, h]
    rfl
  · intro tag ver hmem
    have hv : ver ∈ firstOccurrences (distTags.map Prod.snd) :=
      (mem_firstOccurrences _ _).mpr (List.mem_map_of_mem Prod.snd hmem)
    have hq : (ver, sortTags ((distTags.filter (fun p => p.2 = ver)).map Prod.fst))
        ∈ buildVersionToTagsMap distTags :=
      (mem_buildVersionToTagsMap distTags _).mpr ⟨hv, rfl⟩
    have hrow := (mem_buildTaggedVersionRows distTags _).mpr ⟨_, hq, rfl⟩
    exact List.mem_map.mpr ⟨_, hrow, rfl⟩

/-- C9 witness: `reconciler_total` at the unparseable version `'oops'`. -/
theorem reconciler_total_witness :
    parseVersion "invalid" = fallbackVersion
    ∧ "oops" ∈ (buildTaggedVersionRows [("latest", "oops")]).map (fun r => r.version) :=
  ⟨(reconciler_total "invalid" [("latest", "oops")]).2.1 (by decide),
   (reconciler_total "invalid" [("latest", "oops")]).2.2 "latest" "oops" (by decide)⟩

/-- C10: `mapComponentNameToFiles` maps a `Compare`-prefixed export name to
exactly the single path `compare/<rest>.vue` (with the `Compare` prefix
removed), any other name to exactly `[name.vue, name.client.vue]`, and every
returned path ends in `.vue`. -/
theorem mapComponentNameToFiles_spec (name : String) :
    ("Compare".toList.isPrefixOf name.toList = true →
        mapComponentNameToFiles name
          = [("compare/" ++ String.mk (name.toList.drop "Compare".length)) ++ ".vue"])
    ∧ ("Compare".toList.isPrefixOf name.toList = false →
        mapComponentNameToFiles name = [name ++ ".vue", name ++ ".client.vue"])
    ∧ (∀ s ∈ mapComponentNameToFiles name, ∃ a : String, s = a ++ ".vue") := by
  refine ⟨?_, ?_, ?_⟩
  · intro h
    unfold mapComponentNameToFiles
    rw [if_pos h]
  · intro h
    unfold mapComponentNameToFiles
    rw [if_neg (by rw [h]; simp)]
  · intro s hs
    unfold mapComponentNameToFiles at hs
    by_cases h : "Compare".toList.isPrefixOf name.toList
    · rw [if_pos h] at hs
      simp only [List.mem_singleton] at hs
      exact ⟨"compare/" ++ String.mk (name.toList.drop "Compare".length), hs⟩
    · rw [if_neg h] at hs
      simp only [List.mem_cons, List.not_mem_nil, or_false] at hs
      rcases hs with rfl | rfl
      · exact ⟨name, rfl⟩
      · refine ⟨name ++ ".client", ?_⟩
        rw [String.append_assoc]
        have e : (".client" ++ ".vue" : String) = ".client.vue" := by decide
        rw [e]

/-- C10 witness: both branches of `mapComponentNameToFiles_spec` at concrete
component names. -/
theorem mapComponentNameToFiles_spec_witness :
    mapComponentNameToFiles "CompareHero"
        = [("compare/" ++ String.mk ("CompareHero".toList.drop "Compare".length)) ++ ".vue"]
    ∧ mapComponentNameToFiles "Modal" = ["Modal" ++ ".vue", "Modal" ++ ".client.vue"] :=
  ⟨(mapComponentNameToFiles_spec "CompareHero").1 (by decide),
   (mapComponentNameToFiles_spec "Modal").2.1 (by decide)⟩
